import Mathlib

/-!
Shallow embedding of the jrsgen sources in Lean 4.

jrsgen introspects JVM classes and generates Rust binding code.  The parts
embedded here are the ones the verified properties are about:

* `src/formatter/mod.rs` — the identifier renaming engine
  (`escape_keywords`, `rename_parent_class`, `rename_class_fq`);
* `src/formatter/class.rs` — the wire-descriptor and Rust-type engine
  (`ArgumentType::to_jni_signature`, `ArgumentType::to_rust_type`);
* `src/generator/mod.rs` and `src/generator/method.rs` — the (currently
  dead, commented out of `main.rs`) emitter (`format_name`,
  `generate_method`, `argument_type_to_signature`,
  `generate_argument_type`);
* `src/parser/class_tree.rs` — the data model (`ArgumentType`,
  `MethodEntry`);
* `src/config.rs` — the mapping table (`Config`, `Generator`).

Rust `String`/`&str` values are modelled as `List Char` (`Str`); the Rust
standard-library string operations used by the source are modelled by the
structural functions below.  Code that panics (`unwrap`, `unreachable!`,
`panic!`) is modelled in `Option`, with `none` for the panic.
-/

/-- Rust strings are modelled as lists of characters. -/
abbrev Str := List Char

/-- Conversion from a Lean string literal to the model type. -/
def chars (s : String) : Str := s.toList

/-- Model of Rust `str::contains(char)`. -/
def containsChar (c : Char) : Str → Bool
  | [] => false
  | x :: xs => x == c || containsChar c xs

/-- Model of Rust `str::contains(&str)` (substring containment). -/
def containsSub (pat : Str) : Str → Bool
  | [] => pat.isEmpty
  | x :: xs => pat.isPrefixOf (x :: xs) || containsSub pat xs

/-- Model of Rust `str::split(char)` collected into a `Vec`: the separator
occurrences delimit the pieces, and the result is never empty
(`"".split('.')` yields `[""]`). -/
def splitChar (c : Char) : Str → List Str
  | [] => [[]]
  | x :: xs =>
    if x = c then [] :: splitChar c xs
    else
      match splitChar c xs with
      | [] => [[x]]
      | w :: ws => (x :: w) :: ws

/-- Model of Rust `str::split_once(char)`: the pieces before and after the
first occurrence of the separator, `none` when the separator is absent. -/
def splitOnce (c : Char) : Str → Option (Str × Str)
  | [] => none
  | x :: xs =>
    if x = c then some ([], xs)
    else (splitOnce c xs).map (fun p => (x :: p.1, p.2))

/-- Model of Rust `Vec::pop` combined with the remaining vector: the last
element and the rest, `none` on an empty list. -/
def popLast : List Str → Option (Str × List Str)
  | [] => none
  | [x] => some (x, [])
  | x :: y :: xs => (popLast (y :: xs)).map (fun p => (p.1, x :: p.2))

/-- Model of Rust `Vec::<String>::join(".")` / `format!` reassembly: the
pieces joined with a single separator character. -/
def intercalateChar (c : Char) : List Str → Str
  | [] => []
  | [w] => w
  | w :: x :: ws => w ++ c :: intercalateChar c (x :: ws)

/-- Model of Rust `str::replace(char, &str)`: every occurrence of the
character is replaced by the given string. -/
def replaceChar (c : Char) (repl : Str) : Str → Str
  | [] => []
  | x :: xs => (if x = c then repl else [x]) ++ replaceChar c repl xs

/-- Model of Rust `str::replace(pat, &str)` for a two-character pattern:
non-overlapping occurrences are replaced left to right. -/
def replaceSeq2 (a b : Char) (repl : Str) : Str → Str
  | [] => []
  | [x] => [x]
  | x :: y :: xs =>
    if x = a ∧ y = b then repl ++ replaceSeq2 a b repl xs
    else x :: replaceSeq2 a b repl (y :: xs)

/-- Model of Rust `Vec::<String>::join("::")` for a string separator. -/
def intercalateStr (sep : Str) : List Str → Str
  | [] => []
  | [w] => w
  | w :: x :: ws => w ++ sep ++ intercalateStr sep (x :: ws)

/-- Model of Rust `str::split("::")` for a two-character separator. -/
def splitSeq2 (a b : Char) : Str → List Str
  | [] => [[]]
  | [x] => [[x]]
  | x :: y :: xs =>
    if x = a ∧ y = b then [] :: splitSeq2 a b xs
    else
      match splitSeq2 a b (y :: xs) with
      | [] => [[x]]
      | w :: ws => (x :: w) :: ws

/-!  Model of the external `convert_case` crate's `to_case(Case::Snake)`,
as called by `src/formatter/mod.rs` and `src/generator/*.rs`.  The crate is
not part of this repository; the model follows its documented default
behaviour: split the identifier into words at delimiters (underscore,
hyphen, space, which are dropped), at lower-to-upper, upper-to-digit,
digit-to-upper and digit-to-lower transitions, and inside an acronym before
a trailing lowercase letter; lowercase every word; join with `'_'`.  Only
ASCII identifiers occur in this development.  No proved property depends on
the digit boundaries. -/

/-- Word delimiters dropped by `convert_case`. -/
def isDelim (c : Char) : Bool := c = '_' || c = '-' || c = ' '

/-- Whether `convert_case` starts a new word between `a` and `b`, where
`nxt` is the character after `b` (for the acronym boundary). -/
def breakBefore (a b : Char) (nxt : Option Char) : Bool :=
  (a.isLower && b.isUpper) || (a.isUpper && b.isDigit) ||
  (a.isDigit && b.isUpper) || (a.isDigit && b.isLower) ||
  (a.isUpper && b.isUpper && (match nxt with
    | some n => n.isLower
    | none => false))

/-- Split one delimiter-free piece at the case boundaries. -/
def caseSplit : Str → List Str
  | [] => []
  | [x] => [[x]]
  | x :: y :: xs =>
    if breakBefore x y xs.head? then [x] :: caseSplit (y :: xs)
    else
      match caseSplit (y :: xs) with
      | [] => [[x]]
      | w :: ws => (x :: w) :: ws

/-- Split on a character predicate (used for the delimiter pass). -/
def splitPred (p : Char → Bool) : Str → List Str
  | [] => [[]]
  | x :: xs =>
    if p x then [] :: splitPred p xs
    else
      match splitPred p xs with
      | [] => [[x]]
      | w :: ws => (x :: w) :: ws

/-- Model of `convert_case`'s `to_case(Case::Snake)`. -/
def toSnake (s : Str) : Str :=
  let ws := ((splitPred isDelim s).map caseSplit).flatten
  intercalateChar '_' (ws.map (fun w => w.map Char.toLower))

/-!  `src/formatter/mod.rs` — the identifier renaming engine.
`KEYWORD_SUFFIX = "_k"`, `SUBCLASS_PARENT_SUFFIX = "_p"`. -/

/-- `escape_keywords` (src/formatter/mod.rs:13-20): append the keyword
suffix `"_k"` to a component that is exactly a handled Rust keyword. -/
def escape_keywords (x : Str) : Str :=
  if x = chars "impl" then chars "impl_k"
  else if x = chars "move" then chars "move_k"
  else if x = chars "in" then chars "in_k"
  else x

/-- `rename_parent_class` (src/formatter/mod.rs:28-33): keyword-escape,
snake-case, then append the subclass-parent suffix `"_p"`. -/
def rename_parent_class (input : Str) : Str :=
  let keyword_renamed := escape_keywords input
  let case_adjusted := toSnake keyword_renamed
  case_adjusted ++ chars "_p"

/-- The subclass `while` loop of `rename_class_fq`
(src/formatter/mod.rs:59-70): while the name contains `'$'`, split at the
first `'$'`, push the renamed parent segment, and continue with the rest;
finally the remainder is the true class name.  The guarded
`split_once('$').unwrap()` is modelled in `Option` (`none` is the panic;
it is proved unreachable below). -/
def subclassLoop (tmp : Str) : Option (List Str) :=
  if containsChar '$' tmp then
    match h : splitOnce '$' tmp with
    | some (pre, suf) =>
      (subclassLoop suf).map (fun rest => rename_parent_class pre :: rest)
    | none => none
  else some [tmp]
termination_by tmp.length
decreasing_by
  simp_wf
  clear * - h
  induction tmp generalizing pre suf with
  | nil => simp [splitOnce] at h
  | cons x xs ih =>
    rw [splitOnce] at h
    by_cases hx : x = '$'
    · rw [if_pos hx] at h
      injection h with h'
      injection h' with h1 h2
      subst h2
      simp only [List.length_cons]
      omega
    · rw [if_neg hx, Option.map_eq_some'] at h
      obtain ⟨p, hp, hpe⟩ := h
      obtain ⟨p1, p2⟩ := p
      cases hpe
      have := ih p1 p2 hp
      simp only [List.length_cons]
      omega

/-- `rename_class_fq` (src/formatter/mod.rs:41-76): keyword-escape every
dot component, pop the class-name component (`pop().unwrap()` modelled in
`Option`), snake-case the package components, run the subclass loop, and
re-join with `'.'`. -/
def rename_class_fq (input : Str) : Option Str :=
  let components := (splitChar '.' input).map escape_keywords
  match popLast components with
  | none => none
  | some (class_name, rest) =>
    let case_adjusted_components := rest.map toSnake
    (subclassLoop class_name).map (fun tail =>
      intercalateChar '.' (case_adjusted_components ++ tail))

/-- Closed form of `rename_class_fq`, used to evaluate it on concrete
inputs; proved equal to `rename_class_fq` in `rename_class_fq_eq_closed`
below. -/
def rename_class_fq_closed (input : Str) : Str :=
  match popLast ((splitChar '.' input).map escape_keywords) with
  | none => []
  | some (class_name, rest) =>
    match popLast (splitChar '$' class_name) with
    | none => []
    | some (c, segs) =>
      intercalateChar '.' (rest.map toSnake ++ segs.map rename_parent_class ++ [c])

/-!  `src/parser/class_tree.rs` — the data model. -/

/-- `ArgumentType` (src/parser/class_tree.rs:158-170). -/
inductive ArgumentType where
  | Boolean : ArgumentType
  | Byte : ArgumentType
  | Char : ArgumentType
  | Short : ArgumentType
  | Int : ArgumentType
  | Long : ArgumentType
  | Float : ArgumentType
  | Double : ArgumentType
  | Object : Str → ArgumentType
  | Array : ArgumentType → ArgumentType
deriving DecidableEq

/-- `MethodEntry` (src/parser/class_tree.rs:84-91). -/
structure MethodEntry where
  name : Str
  is_static : Bool
  arguments : List ArgumentType
  return_type : Option ArgumentType
  declaring_class : Str
deriving DecidableEq

/-!  `src/config.rs` — the mapping table.  `HashMap<String, String>` is
modelled as an association list (the spec states the keys are unique);
`HashMap::get` is first-match lookup. -/

/-- `Generator` (src/config.rs:14-21). -/
structure Generator where
  mappings : List (Str × Str)

/-- `Config` (src/config.rs:9-12). -/
structure Config where
  generator : Generator

/-- Model of `HashMap::get` on the association-list model. -/
def lookupMap : List (Str × Str) → Str → Option Str
  | [], _ => none
  | (k, v) :: rest, key => if k = key then some v else lookupMap rest key

/-!  `src/formatter/class.rs` — wire descriptors and Rust types. -/

/-- `ArgumentType::is_primitive` (src/formatter/class.rs:134-139). -/
def ArgumentType.is_primitive : ArgumentType → Bool
  | .Object _ => false
  | .Array _ => false
  | _ => true

/-- `ArgumentType::primitive_to_jni_signature`
(src/formatter/class.rs:141-153).  The `panic!("Not a primitive")` arm for
`Object`/`Array` is modelled as `none`. -/
def primitive_to_jni_signature : ArgumentType → Option Str
  | .Int => some (chars "I")
  | .Byte => some (chars "B")
  | .Double => some (chars "D")
  | .Float => some (chars "F")
  | .Short => some (chars "S")
  | .Char => some (chars "C")
  | .Boolean => some (chars "Z")
  | .Long => some (chars "J")
  | .Object _ => none
  | .Array _ => none

/-- The non-primitive arm of the closure in
`ArgumentType::to_jni_signature` (src/formatter/class.rs:110-123), applied
to the class-name string carried by the node: replace `'.'` by `'/'`; if
the result starts with `"[L"` and ends with `';'`, strip the first and
last character and re-wrap in `"[L"`/`";"`; else if it starts with `'['`,
return it unchanged; otherwise the source executes `unreachable!()`
(a panic, modelled as `none`). -/
def jni_object_arm (class_fq : Str) : Option Str :=
  let slashed := replaceChar '.' (chars "/") class_fq
  let cleaned := slashed
  if (chars "[L").isPrefixOf cleaned ∧ (chars ";").isSuffixOf cleaned then
    some (chars "[L" ++ (cleaned.drop 1).dropLast ++ chars ";")
  else if (chars "[").isPrefixOf cleaned then
    some cleaned
  else
    none

/-- One element of `ArgumentType::to_jni_signature`
(src/formatter/class.rs:102-130): primitives map through
`primitive_to_jni_signature`; otherwise the or-pattern
`Self::Object(class_fq) | Self::Array(class_fq)` binds the node's payload
and applies string operations to it, which is meaningful only when the
payload is the `Object` class-name string (what the parser constructs);
an `Array` whose payload is not an `Object` string has no string to
operate on and is modelled as `none` (the second `Self::Array` arm at
lines 125-127, which would recurse, is shadowed by the or-pattern and
unreachable; the final `_ => unreachable!()` is also modelled as `none`). -/
def to_jni_signature_elem (t : ArgumentType) : Option Str :=
  if t.is_primitive then primitive_to_jni_signature t
  else
    match t with
    | .Object class_fq => jni_object_arm class_fq
    | .Array inner =>
      match inner with
      | .Object class_fq => jni_object_arm class_fq
      | _ => none
    | _ => none

/-- `ArgumentType::to_jni_signature` (src/formatter/class.rs:102-132):
map the closure over the slice and concatenate
(`collect::<String>()`); a panic in any element aborts the whole call. -/
def to_jni_signature (args : List ArgumentType) : Option Str :=
  (args.mapM to_jni_signature_elem).map List.flatten

/-- The "Remove charactes Java puts in" step of
`ArgumentType::to_rust_type` (src/formatter/class.rs:166-170):
`.replace('[', "").replace("[L", "").replace(';', "")`. -/
def remove_java_descriptor_chars (class_fq : Str) : Str :=
  replaceChar ';' [] (replaceSeq2 '[' 'L' [] (replaceChar '[' [] class_fq))

/-- `ArgumentType::to_rust_type` (src/formatter/class.rs:155-195):
primitives map to fixed Rust types; an `Object` is cleaned, renamed via
`rename_class_fq` (whose internal `unwrap` makes the result `Option`),
converted to a `::` path and looked up in the configured mappings, the
value overriding the default path (the inner `match self` there selects
the `Object` branch, so its `Array`/`unreachable` arms are dead); an
`Array` recurses into its element type. -/
def to_rust_type (t : ArgumentType) (config : Config) : Option Str :=
  match t with
  | .Int => some (chars "i32")
  | .Byte => some (chars "u8")
  | .Double => some (chars "f64")
  | .Float => some (chars "f32")
  | .Short => some (chars "i16")
  | .Char => some (chars "u16")
  | .Boolean => some (chars "bool")
  | .Long => some (chars "i64")
  | .Object class_fq =>
    let cleaned := remove_java_descriptor_chars class_fq
    (rename_class_fq cleaned).map (fun renamed =>
      let type_path := replaceChar '.' (chars "::") renamed
      match lookupMap config.generator.mappings type_path with
      | some m => m
      | none => type_path)
  | .Array argument_type => to_rust_type argument_type config

/-!  `src/generator/mod.rs` and `src/generator/method.rs` — the emitter.
The whole `generator` module is commented out of `main.rs` (line 8) and is
dead code, but it is embedded because several claims cite it.  Its
`Array` match arms apply string operations to the `Box<ArgumentType>`
payload; as in `to_jni_signature_elem` this is modelled via the payload's
`Object` class-name string, `none` otherwise. -/

/-- `format_name` (src/generator/mod.rs:18-25). -/
def format_name (x : Str) : Str :=
  if x = chars "impl" then chars "impl_k"
  else if x = chars "move" then chars "move_k"
  else if x = chars "in" then chars "in_k"
  else x

/-- The component-wise `format_name` pass of
`argument_type_to_signature`: split at `'.'`, map `format_name`,
join with `"."`. -/
def format_name_components (name : Str) : Str :=
  intercalateChar '.' ((splitChar '.' name).map format_name)

/-- `argument_type_to_signature` (src/generator/method.rs:140-172):
primitives map to their one-letter descriptors; an `Object` name has its
components passed through `format_name`, dots replaced by slashes, and is
wrapped in `"L"`/`";"`; an `Array` is wrapped in `"[L"`/`";"`
unconditionally, with no recursion into the element type. -/
def argument_type_to_signature : ArgumentType → Option Str
  | .Boolean => some (chars "Z")
  | .Byte => some (chars "B")
  | .Char => some (chars "C")
  | .Short => some (chars "S")
  | .Int => some (chars "I")
  | .Long => some (chars "J")
  | .Float => some (chars "F")
  | .Double => some (chars "D")
  | .Object name =>
    some (chars "L" ++ replaceChar '.' (chars "/") (format_name_components name) ++ chars ";")
  | .Array inner =>
    match inner with
    | .Object name =>
      some (chars "[L" ++ replaceChar '.' (chars "/") (format_name_components name) ++ chars ";")
    | _ => none

/-- `generate_signature` (src/generator/method.rs:174-185): concatenated
argument descriptors in parentheses, then the return descriptor
(`"V"` when there is no return type). -/
def generate_signature (m : MethodEntry) : Option Str :=
  (m.arguments.mapM argument_type_to_signature).bind (fun args =>
    (match m.return_type with
      | some ret => argument_type_to_signature ret
      | none => some (chars "V")).map (fun ret =>
        chars "(" ++ args.flatten ++ chars ")" ++ ret))

/-- `generate_argument_type` (src/generator/method.rs:254-346):
primitives map to fixed Rust types; a one-dimensional primitive array
name maps to the corresponding `Vec`, the two special two-dimensional
cases to nested `Vec`s (the `contains("[[")` guard is redundant since the
two matched literals contain `"[["`), and any other array name degrades to
a reconstructed `crate::bindings` path (`TokenStream` text is modelled as
the underlying string; the `println!` side effect is not modelled). -/
def generate_argument_type : ArgumentType → Option Str
  | .Int => some (chars "i32")
  | .Char => some (chars "u16")
  | .Double => some (chars "f64")
  | .Float => some (chars "f32")
  | .Byte => some (chars "u8")
  | .Long => some (chars "i64")
  | .Short => some (chars "i16")
  | .Boolean => some (chars "bool")
  | .Array inner =>
    match inner with
    | .Object object =>
      if object = chars "[Z" then some (chars "Vec<bool>")
      else if object = chars "[B" then some (chars "Vec<u8>")
      else if object = chars "[C" then some (chars "Vec<u16>")
      else if object = chars "[S" then some (chars "Vec<i16>")
      else if object = chars "[I" then some (chars "Vec<i32>")
      else if object = chars "[J" then some (chars "Vec<i64>")
      else if object = chars "[F" then some (chars "Vec<f32>")
      else if object = chars "[D" then some (chars "Vec<f64>")
      else if containsSub (chars "[[") object ∧ object = chars "[[I" then
        some (chars "Vec<Vec<i32>>")
      else if containsSub (chars "[[") object ∧ object = chars "[[B" then
        some (chars "Vec<Vec<u8>>")
      else
        let o1 := replaceChar '[' [] (replaceSeq2 '[' 'L' [] object)
        let o2 := replaceChar '$' (chars "::") (replaceChar '.' (chars "::") (replaceChar ';' [] o1))
        let o3 := intercalateStr (chars "::") ((splitSeq2 ':' ':' o2).map format_name)
        some (chars "Vec<crate::bindings::" ++ o3 ++ chars ">")
    | _ => none
  | .Object object =>
    let renamed := intercalateChar '.' ((splitChar '.' object).map format_name)
    let path := replaceChar '$' (chars "::") (replaceChar '.' (chars "::") renamed)
    some (chars "crate::bindings::" ++ path)

/-- The generated output of `generate_method`, abstracted to what the
claims observe: either no tokens at all (`quote! {}`), or a wrapper
produced by `generate_static` / `generate_associated` for the method.
The wrapper's token text is not modelled; the function has no error
channel, matching the source's infallible `TokenStream` return type. -/
inductive MethodTokens where
  | empty : MethodTokens
  | staticWrapper : MethodEntry → MethodTokens
  | associatedWrapper : MethodEntry → MethodTokens
deriving DecidableEq

/-- `generate_method` (src/generator/method.rs:8-30): methods whose name
contains `"lambda$"` or `'$'` produce no tokens; methods with an
`Object`-typed argument whose class name contains `"lambda$"` produce no
tokens (the `for` loop with early return is modelled by `List.any`);
otherwise the static or associated wrapper is generated. -/
def generate_method (m : MethodEntry) : MethodTokens :=
  if containsSub (chars "lambda$") m.name || containsChar '$' m.name then
    MethodTokens.empty
  else if m.arguments.any (fun arg =>
      match arg with
      | .Object object => containsSub (chars "lambda$") object
      | _ => false) then
    MethodTokens.empty
  else if m.is_static then MethodTokens.staticWrapper m
  else MethodTokens.associatedWrapper m

/-!  Helper lemmas about the string models. -/

theorem splitOnce_some_length {c : Char} {s pre suf : Str} (h : splitOnce c s = some (pre, suf)) : suf.length < s.length := by
  induction s generalizing pre suf with
  | nil => simp [splitOnce] at h
  | cons x xs ih =>
    rw [splitOnce] at h
    by_cases hx : x = c
    · rw [if_pos hx] at h
      injection h with h'
      injection h' with h1 h2
      subst h2
      simp only [List.length_cons]
      omega
    · rw [if_neg hx, Option.map_eq_some'] at h
      obtain ⟨p, hp, hpe⟩ := h
      obtain ⟨p1, p2⟩ := p
      cases hpe
      have := ih hp
      simp only [List.length_cons]
      omega

theorem splitChar_ne_nil (c : Char) (s : Str) : splitChar c s ≠ [] := by
  cases s with
  | nil => simp [splitChar]
  | cons x xs =>
    rw [splitChar]
    by_cases hx : x = c
    · simp [hx]
    · rw [if_neg hx]
      cases h : splitChar c xs <;> simp

theorem splitChar_of_not_contains {c : Char} {s : Str} (h : containsChar c s = false) : splitChar c s = [s] := by
  induction s with
  | nil => simp [splitChar]
  | cons x xs ih =>
    rw [containsChar, Bool.or_eq_false_iff] at h
    obtain ⟨hx, hxs⟩ := h
    rw [splitChar, if_neg (by simpa using hx), ih hxs]

theorem splitOnce_isSome_of_contains {c : Char} {s : Str} (h : containsChar c s = true) : ∃ pre suf, splitOnce c s = some (pre, suf) := by
  induction s with
  | nil => simp [containsChar] at h
  | cons x xs ih =>
    rw [containsChar, Bool.or_eq_true] at h
    by_cases hx : x = c
    · exact ⟨[], xs, by rw [splitOnce, if_pos hx]⟩
    · have hxs : containsChar c xs = true := by
        rcases h with h | h
        · exact absurd (by simpa using h) hx
        · exact h
      obtain ⟨pre, suf, hs⟩ := ih hxs
      exact ⟨x :: pre, suf, by rw [splitOnce, if_neg hx, hs]; rfl⟩

theorem splitChar_of_splitOnce {c : Char} {s pre suf : Str} (h : splitOnce c s = some (pre, suf)) : splitChar c s = pre :: splitChar c suf := by
  induction s generalizing pre suf with
  | nil => simp [splitOnce] at h
  | cons x xs ih =>
    rw [splitOnce] at h
    by_cases hx : x = c
    · rw [if_pos hx] at h
      injection h with h'
      injection h' with h1 h2
      subst h1; subst h2
      rw [splitChar, if_pos hx]
    · rw [if_neg hx, Option.map_eq_some'] at h
      obtain ⟨p, hp, hpe⟩ := h
      obtain ⟨p1, p2⟩ := p
      cases hpe
      rw [splitChar, if_neg hx, ih hp]

theorem intercalateChar_splitChar (c : Char) (s : Str) : intercalateChar c (splitChar c s) = s := by
  induction s with
  | nil => simp [splitChar, intercalateChar]
  | cons x xs ih =>
    rw [splitChar]
    by_cases hx : x = c
    · rw [if_pos hx]
      obtain ⟨w, ws, hw⟩ : ∃ w ws, splitChar c xs = w :: ws := by
        cases h : splitChar c xs with
        | nil => exact absurd h (splitChar_ne_nil c xs)
        | cons w ws => exact ⟨w, ws, rfl⟩
      rw [hw]
      rw [hw] at ih
      rw [intercalateChar, hx, ih]
      rfl
    · rw [if_neg hx]
      cases h : splitChar c xs with
      | nil => exact absurd h (splitChar_ne_nil c xs)
      | cons w ws =>
        rw [h] at ih
        cases ws with
        | nil =>
          rw [intercalateChar] at ih
          rw [intercalateChar, ih]
        | cons w2 ws2 =>
          rw [intercalateChar] at ih ⊢
          rw [List.cons_append, ih]

theorem popLast_concat (l : List Str) (a : Str) : popLast (l ++ [a]) = some (a, l) := by
  induction l with
  | nil => simp [popLast]
  | cons x xs ih =>
    cases xs with
    | nil => simp [popLast]
    | cons y ys =>
      rw [show (x :: y :: ys) ++ [a] = x :: y :: (ys ++ [a]) from rfl]
      simp only [popLast]
      rw [show y :: (ys ++ [a]) = (y :: ys) ++ [a] from rfl, ih]
      rfl

theorem exists_popLast {l : List Str} (h : l ≠ []) : ∃ a rest, popLast l = some (a, rest) := by
  induction l with
  | nil => exact absurd rfl h
  | cons x xs ih =>
    cases xs with
    | nil => exact ⟨x, [], rfl⟩
    | cons y ys =>
      obtain ⟨a, rest, hr⟩ := ih (by simp)
      exact ⟨a, x :: rest, by rw [popLast, hr]; rfl⟩

theorem map_eq_self_of_mem {f : Str → Str} {l : List Str} (h : ∀ a ∈ l, f a = a) : l.map f = l := by
  induction l with
  | nil => rfl
  | cons x xs ih =>
    rw [List.map_cons, h x (by simp), ih (fun a ha => h a (by simp [ha]))]

theorem any_eq_true_of_mem {p : ArgumentType → Bool} {l : List ArgumentType} {a : ArgumentType} (hmem : a ∈ l) (hp : p a = true) : l.any p = true := by
  induction l with
  | nil => simp at hmem
  | cons x xs ih =>
    rw [List.any_cons, Bool.or_eq_true]
    rcases List.mem_cons.mp hmem with h | h
    · subst h; exact Or.inl hp
    · exact Or.inr (ih h)

theorem subclassLoop_spec : ∀ (tmp c : Str) (segs : List Str), popLast (splitChar '$' tmp) = some (c, segs) → subclassLoop tmp = some (segs.map rename_parent_class ++ [c]) := by
  suffices h : ∀ (n : Nat) (tmp c : Str) (segs : List Str), tmp.length ≤ n → popLast (splitChar '$' tmp) = some (c, segs) → subclassLoop tmp = some (segs.map rename_parent_class ++ [c]) by
    exact fun tmp c segs hp => h tmp.length tmp c segs le_rfl hp
  intro n
  induction n with
  | zero =>
    intro tmp c segs hlen hp
    have htmp : tmp = [] := List.eq_nil_of_length_eq_zero (Nat.le_zero.mp hlen)
    subst htmp
    simp only [splitChar, popLast, Option.some.injEq, Prod.mk.injEq] at hp
    obtain ⟨h1, h2⟩ := hp
    subst h1; subst h2
    rw [subclassLoop.eq_def]
    simp [containsChar]
  | succ n ih =>
    intro tmp c segs hlen hp
    by_cases hc : containsChar '$' tmp = true
    · obtain ⟨pre, suf, hs⟩ := splitOnce_isSome_of_contains hc
      have hsplit : splitChar '$' tmp = pre :: splitChar '$' suf := splitChar_of_splitOnce hs
      obtain ⟨w, ws, hw⟩ : ∃ w ws, splitChar '$' suf = w :: ws := by
        cases h : splitChar '$' suf with
        | nil => exact absurd h (splitChar_ne_nil '$' suf)
        | cons w ws => exact ⟨w, ws, rfl⟩
      rw [hsplit, hw] at hp
      simp only [popLast, Option.map_eq_some'] at hp
      obtain ⟨p, hps, hpe⟩ := hp
      obtain ⟨c', segs'⟩ := p
      injection hpe with hpe1 hpe2
      have hlt := splitOnce_some_length hs
      have hsl : subclassLoop suf = some (segs'.map rename_parent_class ++ [c']) := by
        refine ih suf c' segs' (by omega) ?_
        rw [hw]
        exact hps
      rw [subclassLoop.eq_def, if_pos hc]
      split
      · rename_i pre2 suf2 heq
        rw [hs] at heq
        injection heq with heq'
        injection heq' with heq1 heq2
        subst heq1; subst heq2
        rw [hsl, ← hpe1, ← hpe2]
        rfl
      · rename_i heq
        rw [hs] at heq
        cases heq
    · have hcf : containsChar '$' tmp = false := by simpa using hc
      rw [subclassLoop.eq_def, if_neg (by simp [hcf])]
      rw [splitChar_of_not_contains hcf] at hp
      simp only [popLast, Option.some.injEq, Prod.mk.injEq] at hp
      obtain ⟨h1, h2⟩ := hp
      subst h1; subst h2
      simp

theorem rename_class_fq_eq_closed (input : Str) : rename_class_fq input = some (rename_class_fq_closed input) := by
  have hne : (splitChar '.' input).map escape_keywords ≠ [] := by
    intro hc
    exact splitChar_ne_nil '.' input (List.map_eq_nil_iff.mp hc)
  obtain ⟨class_name, rest, hp⟩ := exists_popLast hne
  obtain ⟨c, segs, hq⟩ : ∃ c segs, popLast (splitChar '$' class_name) = some (c, segs) :=
    exists_popLast (splitChar_ne_nil '$' class_name)
  have hloop := subclassLoop_spec class_name c segs hq
  rw [rename_class_fq, rename_class_fq_closed]
  simp only [hp, hq, hloop, Option.map_some', Option.some.injEq]
  rw [List.append_assoc]

/-!  Claim theorems. -/

/-- C1 (counterexample): the claim "encoding `ObjectRef(fq)` yields `'L'`
followed by `fq` with `'.'` replaced by `'/'` followed by `';'`" fails for
`fq = "com.impl.Foo"`: `argument_type_to_signature` first passes every
component through `format_name`, so the keyword component `impl` becomes
`impl_k` and the descriptor is `"Lcom/impl_k/Foo;"`, not
`"Lcom/impl/Foo;"`. -/
theorem C1_counterexample :
    argument_type_to_signature (ArgumentType.Object (chars "com.impl.Foo")) ≠
      some (chars "L" ++ replaceChar '.' (chars "/") (chars "com.impl.Foo") ++ chars ";") ∧
    argument_type_to_signature (ArgumentType.Object (chars "com.impl.Foo")) =
      some (chars "Lcom/impl_k/Foo;") :=
  ⟨by decide, by decide⟩

/-- C1 (amended): for every fully-qualified class name none of whose dot
components is one of the escaped keywords `impl`, `move`, `in`, encoding
`ObjectRef(fq)` via `argument_type_to_signature` yields `'L'` followed by
`fq` with every `'.'` replaced by `'/'`, followed by `';'`. -/
theorem C1_amended (fq : Str)
    (h : ∀ comp ∈ splitChar '.' fq, comp ≠ chars "impl" ∧ comp ≠ chars "move" ∧ comp ≠ chars "in") :
    argument_type_to_signature (ArgumentType.Object fq) =
      some (chars "L" ++ replaceChar '.' (chars "/") fq ++ chars ";") := by
  have hmap : (splitChar '.' fq).map format_name = splitChar '.' fq := by
    apply map_eq_self_of_mem
    intro a ha
    obtain ⟨h1, h2, h3⟩ := h a ha
    rw [format_name, if_neg h1, if_neg h2, if_neg h3]
  simp only [argument_type_to_signature, format_name_components, hmap, intercalateChar_splitChar]

/-- C1 (witness): `ObjectRef("java.lang.String")` encodes to
`"Ljava/lang/String;"`. -/
theorem C1_witness :
    argument_type_to_signature (ArgumentType.Object (chars "java.lang.String")) =
      some (chars "Ljava/lang/String;") := by
  have h := C1_amended (chars "java.lang.String") (by decide)
  rw [h]
  decide

/-- C2: contrary to the claim that a descriptor string without a
recognized marker is handled as a class-local defect, the live
`to_jni_signature` reaches the `unreachable!()` arm
(src/formatter/class.rs:122) on every plain object argument — already on
`ObjectRef("java.lang.String")`, whose slashed form starts with neither
`"[L"` nor `"["` — and panics, aborting the whole run (`none` models the
panic). -/
theorem C2_object_descriptor_panics :
    to_jni_signature [ArgumentType.Object (chars "java.lang.String")] = none := by
  decide

/-- C3 (counterexample): the claim "rename replaces each enclosing-class
segment by its snake-cased form with `_p` appended" fails for the
enclosing segment `impl` of `"a.Foo$impl$Bar"`: `rename_parent_class`
keyword-escapes the segment before snake-casing, producing `impl_k_p`
rather than the claimed `impl_p`. -/
theorem C3_counterexample :
    rename_class_fq (chars "a.Foo$impl$Bar") ≠ some (chars "a.foo_p.impl_p.Bar") ∧
    rename_class_fq (chars "a.Foo$impl$Bar") = some (chars "a.foo_p.impl_k_p.Bar") := by
  rw [rename_class_fq_eq_closed]
  exact ⟨by decide, by decide⟩

/-- C3 (amended): for every fully-qualified name whose class-name
component contains a chain of `'$'` nesting markers, `rename_class_fq`
replaces each enclosing-class segment by its keyword-escaped, snake-cased
form with the parent suffix `"_p"` appended (`rename_parent_class`),
inserts these as additional package path segments in order, and appends
the final remainder unchanged as the class name. -/
theorem C3_amended (input class_component c : Str) (pk segs : List Str)
    (h1 : splitChar '.' input = pk ++ [class_component])
    (h2 : splitChar '$' class_component = segs ++ [c])
    (h3 : segs ≠ []) :
    rename_class_fq input =
      some (intercalateChar '.' (pk.map (fun x => toSnake (escape_keywords x)) ++
        segs.map rename_parent_class ++ [c])) := by
  have hdollar : containsChar '$' class_component = true := by
    cases hq : containsChar '$' class_component with
    | false =>
      exfalso
      have hsp := splitChar_of_not_contains hq
      rw [h2] at hsp
      cases segs with
      | nil => exact h3 rfl
      | cons a l =>
        rw [List.cons_append] at hsp
        injection hsp with h4 h5
        simp at h5
    | true => rfl
  have hne1 : class_component ≠ chars "impl" := fun e => absurd (e ▸ hdollar) (by decide)
  have hne2 : class_component ≠ chars "move" := fun e => absurd (e ▸ hdollar) (by decide)
  have hne3 : class_component ≠ chars "in" := fun e => absurd (e ▸ hdollar) (by decide)
  have hesc : escape_keywords class_component = class_component := by
    rw [escape_keywords, if_neg hne1, if_neg hne2, if_neg hne3]
  have hmap : (splitChar '.' input).map escape_keywords =
      pk.map escape_keywords ++ [class_component] := by
    rw [h1, List.map_append]
    simp [hesc]
  have hpop : popLast ((splitChar '.' input).map escape_keywords) =
      some (class_component, pk.map escape_keywords) := by
    rw [hmap]
    exact popLast_concat _ _
  have hq2 : popLast (splitChar '$' class_component) = some (c, segs) := by
    rw [h2]
    exact popLast_concat _ _
  have hloop := subclassLoop_spec class_component c segs hq2
  rw [rename_class_fq]
  simp only [hpop, hloop, Option.map_some', Option.some.injEq]
  simp only [List.map_map, List.append_assoc]
  rfl

/-- C3 (witness): `rename("com.foo.example.Bar$Baz$Quix")` is
`"com.foo.example.bar_p.baz_p.Quix"`. -/
theorem C3_witness :
    rename_class_fq (chars "com.foo.example.Bar$Baz$Quix") =
      some (chars "com.foo.example.bar_p.baz_p.Quix") := by
  have h := C3_amended (chars "com.foo.example.Bar$Baz$Quix") (chars "Bar$Baz$Quix")
    (chars "Quix") [chars "com", chars "foo", chars "example"] [chars "Bar", chars "Baz"]
    (by decide) (by decide) (by decide)
  rw [h]
  decide

/-- C4: contrary to the claim that `ArrayRef(t)` encodes to `'['` followed
by the descriptor of `t` with recursion per dimension, the first match arm
of `to_jni_signature` captures every array and operates on its payload
string (the recursive arm at src/formatter/class.rs:125-127 is shadowed
and unreachable), so the claimed example `ArrayRef(ArrayRef(Primitive
int))` has no payload string and panics (`none`); what the code does
instead is pass a parser-shaped array payload such as `Object "[[I"`
straight through. -/
theorem C4_array_descriptor :
    to_jni_signature [ArgumentType.Array (ArgumentType.Array ArgumentType.Int)] = none ∧
    to_jni_signature [ArgumentType.Array (ArgumentType.Object (chars "[[I"))] =
      some (chars "[[I") :=
  ⟨by decide, by decide⟩

/-- C5: every method whose name contains the lambda marker `"lambda$"` or
the generated-name separator `'$'` produces no wrapper tokens at all:
`generate_method` returns the empty token stream, and its return type has
no error channel, so the omission is silent. -/
theorem C5_synthetic_methods_omitted (m : MethodEntry)
    (h : containsSub (chars "lambda$") m.name = true ∨ containsChar '$' m.name = true) :
    generate_method m = MethodTokens.empty := by
  have hcond : (containsSub (chars "lambda$") m.name || containsChar '$' m.name) = true := by
    rcases h with h | h <;> simp [h]
  rw [generate_method, if_pos hcond]

/-- C5 (witness): a method named `lambda$run$0` is omitted. -/
theorem C5_witness :
    generate_method ⟨chars "lambda$run$0", false, [], none, chars "com.A"⟩ =
      MethodTokens.empty :=
  C5_synthetic_methods_omitted _ (Or.inl (by decide))

/-- C6: for every `ObjectRef` and configuration, `to_rust_type` always
succeeds; when the canonical resolved path (cleaned, renamed, converted to
`::`) is a key of the mapping table the emitted type text is exactly the
mapped value, and when the key is absent it is the resolved path itself. -/
theorem C6_mapping_override_total (fq : Str) (cfg : Config) :
    (∃ s, to_rust_type (ArgumentType.Object fq) cfg = some s) ∧
    ∀ r, rename_class_fq (remove_java_descriptor_chars fq) = some r →
      ((∀ v, lookupMap cfg.generator.mappings (replaceChar '.' (chars "::") r) = some v →
          to_rust_type (ArgumentType.Object fq) cfg = some v) ∧
        (lookupMap cfg.generator.mappings (replaceChar '.' (chars "::") r) = none →
          to_rust_type (ArgumentType.Object fq) cfg =
            some (replaceChar '.' (chars "::") r))) := by
  constructor
  · have hr := rename_class_fq_eq_closed (remove_java_descriptor_chars fq)
    simp only [to_rust_type, hr, Option.map_some']
    exact ⟨_, rfl⟩
  · intro r hrr
    constructor
    · intro v hv
      simp only [to_rust_type, hrr, Option.map_some', hv]
    · intro hn
      simp only [to_rust_type, hrr, Option.map_some', hn]

/-- C6 (witness): with the mapping `java::lang::String -> ejni::String`
the emitted text is the override; with an empty mapping it is the
synthesized default path. -/
theorem C6_witness :
    to_rust_type (ArgumentType.Object (chars "java.lang.String"))
        ⟨⟨[(chars "java::lang::String", chars "ejni::String")]⟩⟩ =
      some (chars "ejni::String") ∧
    to_rust_type (ArgumentType.Object (chars "java.lang.String")) ⟨⟨[]⟩⟩ =
      some (chars "java::lang::String") := by
  constructor
  · exact ((C6_mapping_override_total (chars "java.lang.String") _).2
      (chars "java.lang.String") (by rw [rename_class_fq_eq_closed]; decide)).1
      (chars "ejni::String") (by decide)
  · have h := ((C6_mapping_override_total (chars "java.lang.String") ⟨⟨[]⟩⟩).2
      (chars "java.lang.String") (by rw [rename_class_fq_eq_closed]; decide)).2 (by decide)
    rw [h]
    decide

/-- C7: for every configuration, each of the 8 primitive kinds maps to the
fixed-width Rust type stated by the spec, both in the live
`to_rust_type` and in the dead emitter's `generate_argument_type`. -/
theorem C7_primitive_types (cfg : Config) :
    to_rust_type ArgumentType.Int cfg = some (chars "i32") ∧
    to_rust_type ArgumentType.Byte cfg = some (chars "u8") ∧
    to_rust_type ArgumentType.Double cfg = some (chars "f64") ∧
    to_rust_type ArgumentType.Float cfg = some (chars "f32") ∧
    to_rust_type ArgumentType.Short cfg = some (chars "i16") ∧
    to_rust_type ArgumentType.Char cfg = some (chars "u16") ∧
    to_rust_type ArgumentType.Boolean cfg = some (chars "bool") ∧
    to_rust_type ArgumentType.Long cfg = some (chars "i64") ∧
    generate_argument_type ArgumentType.Int = some (chars "i32") ∧
    generate_argument_type ArgumentType.Byte = some (chars "u8") ∧
    generate_argument_type ArgumentType.Double = some (chars "f64") ∧
    generate_argument_type ArgumentType.Float = some (chars "f32") ∧
    generate_argument_type ArgumentType.Short = some (chars "i16") ∧
    generate_argument_type ArgumentType.Char = some (chars "u16") ∧
    generate_argument_type ArgumentType.Boolean = some (chars "bool") ∧
    generate_argument_type ArgumentType.Long = some (chars "i64") :=
  ⟨rfl, rfl, rfl, rfl, rfl, rfl, rfl, rfl, rfl, rfl, rfl, rfl, rfl, rfl, rfl, rfl⟩

/-- C8: `rename_class_fq` is total: for every input string (including the
empty string and strings without a package separator) it returns a result;
its internal `unwrap`s (modelled by the `Option`) never fire. -/
theorem C8_rename_total : ∀ s : Str, ∃ r, rename_class_fq s = some r :=
  fun s => ⟨rename_class_fq_closed s, rename_class_fq_eq_closed s⟩

/-- C9: keyword escaping is applied independently to every component at
any position: a component equal to one of the reserved words `impl`,
`move`, `in` gets the suffix `"_k"` appended and every other component is
left unchanged by the escaping step; in particular
`rename("com.foo.impl.Bar") = "com.foo.impl_k.Bar"` (package position) and
`rename("a.b.impl") = "a.b.impl_k"` (class-name position). -/
theorem C9_keyword_escaping :
    (∀ x : Str, x ≠ chars "impl" → x ≠ chars "move" → x ≠ chars "in" →
      escape_keywords x = x) ∧
    escape_keywords (chars "impl") = chars "impl" ++ chars "_k" ∧
    escape_keywords (chars "move") = chars "move" ++ chars "_k" ∧
    escape_keywords (chars "in") = chars "in" ++ chars "_k" ∧
    rename_class_fq (chars "com.foo.impl.Bar") = some (chars "com.foo.impl_k.Bar") ∧
    rename_class_fq (chars "a.b.impl") = some (chars "a.b.impl_k") := by
  refine ⟨?_, by decide, by decide, by decide, ?_, ?_⟩
  · intro x h1 h2 h3
    rw [escape_keywords, if_neg h1, if_neg h2, if_neg h3]
  · rw [rename_class_fq_eq_closed]
    decide
  · rw [rename_class_fq_eq_closed]
    decide

/-- C9 (witness): an ordinary component is unchanged by the escaping. -/
theorem C9_witness : escape_keywords (chars "Bar") = chars "Bar" :=
  C9_keyword_escaping.1 (chars "Bar") (by decide) (by decide) (by decide)

/-- C10: beyond the name filter, a method with at least one object-typed
argument whose class name contains `"lambda$"` also produces no wrapper
tokens, even when the method's own name has no marker; `generate_method`
returns the empty token stream without an error channel. -/
theorem C10_lambda_argument_omitted (m : MethodEntry) (s : Str)
    (hmem : ArgumentType.Object s ∈ m.arguments)
    (hs : containsSub (chars "lambda$") s = true) :
    generate_method m = MethodTokens.empty := by
  rw [generate_method]
  by_cases hname : (containsSub (chars "lambda$") m.name || containsChar '$' m.name) = true
  · rw [if_pos hname]
  · rw [if_neg hname, if_pos (any_eq_true_of_mem hmem hs)]

/-- C10 (witness): a method named `call` with a `lambda$` argument class is
omitted. -/
theorem C10_witness :
    generate_method ⟨chars "call", false, [ArgumentType.Object (chars "com.foo.lambda$1")],
      none, chars "com.A"⟩ = MethodTokens.empty :=
  C10_lambda_argument_omitted _ (chars "com.foo.lambda$1") (by decide) (by decide)
